import Mathlib

/-!
Verification of the exam-number generator (`src/main.rs`).

The core of the program is the struct `GenerateCodes` with three methods:
`generate_candidate` (draw a random number in `range` and format it
zero-padded to `num_digits`, after the prefix), `ok` (accept a candidate only
if its Hamming distance to every used code, computed over the zip of the two
character sequences, is at least `min_hamming_distance`), and `new_code`
(rejection-sampling loop that pushes the accepted code onto `used`).

Modelling choices:
* Rust `String` values are modelled as `List Char` (`Code`), matching the
  `chars()` iteration the source performs.
* The ChaCha8 PRNG is modelled abstractly as a stream `rng : Nat → Nat`
  together with a cursor `idx`; `gen_range(0..rangeSize)` is modelled as
  `rng idx % rangeSize` (a value in the range, a deterministic function of
  the generator state), advancing the cursor.
* Rust's `format!("{:0w$}", d)` is modelled by `padNum`: the decimal digit
  characters of `d` (`natDigits`), left-padded with the character zero up to
  minimum width `w`.
* The unbounded `while` loop of `new_code` is modelled with fuel; `none`
  means the loop has not terminated within the given number of iterations,
  and a result of `none` for every fuel value models non-termination.
-/

/-- A code, as the sequence of characters of the Rust `String`. -/
abbrev Code := List Char

/-- The character for a single decimal digit value (`0 ↦ '0'`, …). -/
def digitChar (n : Nat) : Char := Char.ofNat (48 + n)

/-- Fuel-driven decimal digit expansion: most significant digit first,
mirroring Rust's decimal `Display` for unsigned integers. -/
def natDigitsAux : Nat → Nat → List Char
  | 0, _ => []
  | fuel+1, n =>
    if n < 10 then [digitChar n]
    else natDigitsAux fuel (n / 10) ++ [digitChar (n % 10)]

/-- The decimal digit characters of `n`, most significant first. -/
def natDigits (n : Nat) : List Char := natDigitsAux (n + 1) n

/-- Left-pad a character list with the zero character up to width `w`
(no-op when already at least that wide), as Rust's `{:0w$}` padding does. -/
def zeroPad (w : Nat) (ds : List Char) : List Char :=
  List.replicate (w - ds.length) '0' ++ ds

/-- `padNum w v` is `format!("{:0w$}", v)`: the decimal representation of
`v` left-zero-padded to minimum width `w`. -/
def padNum (w v : Nat) : List Char := zeroPad w (natDigits v)

/-- The Hamming distance of the source's `ok` closure:
`s.chars().zip(candidate.chars()).filter(|(a,b)| a!=b).count()` —
the number of differing positions over the common prefix length. -/
def hammingDistance (s c : Code) : Nat :=
  (List.filter (fun p => p.1 != p.2) (s.zip c)).length

/-- The state of the code generator (`struct GenerateCodes`): the abstract
random stream with its cursor (for `prng : ChaCha8Rng`), the upper end of
the sampling range (`range : Range<u64>` is `0..rangeSize`), the digit
width, and the list of used codes. -/
structure GenerateCodes where
  rng : Nat → Nat
  idx : Nat
  rangeSize : Nat
  num_digits : Nat
  used : List Code

/-- The value `gen_range(self.range.clone())` returns at the current
generator state: a value in `[0, rangeSize)` determined by the PRNG state. -/
def GenerateCodes.sample (g : GenerateCodes) : Nat := g.rng g.idx % g.rangeSize

/-- Advancing the PRNG state (the side effect of `gen_range` on `prng`). -/
def GenerateCodes.advance (g : GenerateCodes) : GenerateCodes :=
  { g with idx := g.idx + 1 }

/-- The string `generate_candidate` returns:
`format!("{}{:02$}", prefix, digits, self.num_digits)`. -/
def GenerateCodes.candidate (g : GenerateCodes) (pfx : Code) : Code :=
  pfx ++ padNum g.num_digits g.sample

/-- `fn generate_candidate(&mut self, prefix: &str) -> String`: returns the
formatted candidate and the generator with its PRNG advanced. -/
def GenerateCodes.generate_candidate (g : GenerateCodes) (pfx : Code) :
    Code × GenerateCodes :=
  (g.candidate pfx, g.advance)

/-- `fn ok(&self, candidate: &str, min_hamming_distance: usize) -> bool`:
every used code must be at Hamming distance at least
`min_hamming_distance` from the candidate. -/
def GenerateCodes.ok (g : GenerateCodes) (candidate : Code)
    (min_hamming_distance : Nat) : Bool :=
  g.used.all (fun s => decide (hammingDistance s candidate ≥ min_hamming_distance))

/-- `self.used.push(candidate)`. -/
def GenerateCodes.push (g : GenerateCodes) (c : Code) : GenerateCodes :=
  { g with used := g.used ++ [c] }

/-- `fn new_code(&mut self, prefix: &str, min_hamming_distance: usize)`:
draw candidates until one passes `ok`, push it onto `used` and return it.
The Rust loop is unbounded; `fuel` bounds the number of draws in the model
and `none` means the loop is still running after `fuel` draws. -/
def GenerateCodes.new_code : GenerateCodes → Nat → Code → Nat → Option (Code × GenerateCodes)
  | _, 0, _, _ => none
  | g, fuel+1, pfx, m =>
    let c := g.candidate pfx
    let g' := g.advance
    if g'.ok c m then some (c, g'.push c) else GenerateCodes.new_code g' fuel pfx m

/-- The inner loop of `main` for one `(prefix, count)` request: call
`new_code` `count` times, collecting the codes in order. -/
def GenerateCodes.new_codes : GenerateCodes → Nat → Code → Nat → Nat → Option (List Code × GenerateCodes)
  | g, _, _, _, 0 => some ([], g)
  | g, fuel, pfx, m, count+1 =>
    match g.new_code fuel pfx m with
    | none => none
    | some (c, g') =>
      match GenerateCodes.new_codes g' fuel pfx m count with
      | none => none
      | some (cs, g'') => some (c :: cs, g'')

/-- The outer loop of `main` over all requested `(prefix, count)` pairs,
returning the generated codes in output order. -/
def runRequests (fuel m : Nat) : GenerateCodes → List (Code × Nat) → Option (List Code × GenerateCodes)
  | g, [] => some ([], g)
  | g, (pfx, count) :: rest =>
    match g.new_codes fuel pfx m count with
    | none => none
    | some (cs, g') =>
      match runRequests fuel m g' rest with
      | none => none
      | some (cs', g'') => some (cs ++ cs', g'')

/-- The generator as `main` constructs it: seeded PRNG stream, cursor at the
start, `range = 0..10^digits`, empty used list. -/
def initGenerator (stream : Nat → Nat) (digits : Nat) : GenerateCodes :=
  { rng := stream, idx := 0, rangeSize := 10 ^ digits,
    num_digits := digits, used := [] }

/-- `main`'s loading of `--existing` files: each line is pushed onto `used`
verbatim, with no validation. -/
def loadExisting (g : GenerateCodes) (lines : List Code) : GenerateCodes :=
  { g with used := g.used ++ lines }

/-- The pairwise Hamming-distance property of a set of codes: every pair of
distinct codes is at distance at least `m`. -/
def GoodSet (m : Nat) (l : List Code) : Prop :=
  ∀ a ∈ l, ∀ b ∈ l, a ≠ b → m ≤ hammingDistance a b

instance (m : Nat) (l : List Code) : Decidable (GoodSet m l) :=
  inferInstanceAs (Decidable (∀ a ∈ l, ∀ b ∈ l, a ≠ b → m ≤ hammingDistance a b))

/-- A run setup with two pre-supplied codes at distance 1: `--existing`
lines `"00"` and `"01"`, two digits, PRNG stream constantly 22. -/
def cexBefore : GenerateCodes :=
  loadExisting (initGenerator (fun _ => 22) 2) [['0', '0'], ['0', '1']]

/-- A run setup whose single pre-supplied code `"00"` is compatible with
`min_hamming_distance = 2`. -/
def wBefore : GenerateCodes :=
  loadExisting (initGenerator (fun _ => 22) 2) [['0', '0']]

/-- The generator state after `wBefore` accepts its first candidate. -/
def wAfter : GenerateCodes := (wBefore.advance).push (wBefore.candidate [])

/-- A width-one generator with one used code, the infeasibility-boundary
scenario of the spec. -/
def infeasibleGen : GenerateCodes :=
  loadExisting (initGenerator (fun i => i) 1) [['5']]

/-- A generator whose used set contains the empty string, as produced by a
blank line in an existing-codes file. -/
def poisonGen : GenerateCodes :=
  loadExisting (initGenerator (fun i => i) 3) [[]]

/-- A fresh generator used to witness the frame conditions. -/
def frameBefore : GenerateCodes := initGenerator (fun i => i) 1

/-- The state after one `new_code` call on `frameBefore`. -/
def frameAfter : GenerateCodes :=
  (frameBefore.advance).push (frameBefore.candidate ['B'])

theorem hammingDistance_nil_right (s : Code) : hammingDistance s [] = 0 := by
  simp [hammingDistance]

theorem hammingDistance_comm (s c : Code) :
    hammingDistance s c = hammingDistance c s := by
  induction s generalizing c with
  | nil => simp [hammingDistance]
  | cons a s ih =>
    cases c with
    | nil => simp [hammingDistance]
    | cons b t =>
      by_cases h : a = b
      · subst h
        simpa [hammingDistance, List.zip_cons_cons, List.filter_cons] using ih t
      · have h' : b ≠ a := Ne.symm h
        simpa [hammingDistance, List.zip_cons_cons, List.filter_cons, h, h']
          using ih t

theorem hammingDistance_self (c : Code) : hammingDistance c c = 0 := by
  induction c with
  | nil => rfl
  | cons a s ih =>
    simpa [hammingDistance, List.zip_cons_cons, List.filter_cons] using ih

theorem hammingDistance_le_left (s c : Code) : hammingDistance s c ≤ s.length := by
  refine le_trans (List.length_filter_le _ _) ?_
  simp [List.length_zip]

theorem hammingDistance_le_right (s c : Code) : hammingDistance s c ≤ c.length := by
  refine le_trans (List.length_filter_le _ _) ?_
  simp [List.length_zip]

theorem natDigitsAux_eq : ∀ n f : Nat, n < f → natDigitsAux f n = natDigits n := by
  intro n
  induction n using Nat.strong_induction_on with
  | _ n ih =>
    intro f h
    cases f with
    | zero => omega
    | succ f =>
      by_cases h10 : n < 10
      · simp [natDigitsAux, natDigits, h10]
      · have hdiv : n / 10 < n := Nat.div_lt_self (by omega) (by omega)
        simp only [natDigitsAux, natDigits, if_neg h10]
        rw [ih (n / 10) hdiv f (by omega), ih (n / 10) hdiv n (by omega)]

theorem natDigits_eq (n : Nat) :
    natDigits n =
      if n < 10 then [digitChar n]
      else natDigits (n / 10) ++ [digitChar (n % 10)] := by
  by_cases h10 : n < 10
  · rw [if_pos h10]
    simp [natDigits, natDigitsAux, h10]
  · rw [if_neg h10]
    have hdiv : n / 10 < n := Nat.div_lt_self (by omega) (by omega)
    have hstep : natDigitsAux (n + 1) n = natDigitsAux n (n / 10) ++ [digitChar (n % 10)] := by
      simp only [natDigitsAux, if_neg h10]
    show natDigitsAux (n + 1) n = _
    rw [hstep, natDigitsAux_eq (n / 10) n hdiv]

theorem natDigits_length_pos (n : Nat) : 1 ≤ (natDigits n).length := by
  rw [natDigits_eq]
  by_cases h : n < 10 <;> simp [h]

theorem natDigits_length_le : ∀ w n : Nat, n < 10 ^ w → 1 ≤ w → (natDigits n).length ≤ w := by
  intro w
  induction w with
  | zero => omega
  | succ w ih =>
    intro n hn _
    rw [natDigits_eq]
    by_cases h10 : n < 10
    · simp [h10]
    · have hw : 1 ≤ w := by
        rcases Nat.eq_zero_or_pos w with rfl | hpos
        · simp [pow_succ] at hn; omega
        · exact hpos
      have hdiv : n / 10 < 10 ^ w := by
        rw [Nat.div_lt_iff_lt_mul (by omega : 0 < 10)]
        calc n < 10 ^ (w + 1) := hn
          _ = 10 ^ w * 10 := by rw [pow_succ]
      have := ih (n / 10) hdiv hw
      simp only [if_neg h10, List.length_append, List.length_cons,
        List.length_nil]
      omega

theorem natDigits_mem (n : Nat) : ∀ c ∈ natDigits n, ∃ k, k < 10 ∧ c = digitChar k := by
  induction n using Nat.strong_induction_on with
  | _ n ih =>
    rw [natDigits_eq]
    by_cases h10 : n < 10
    · simp only [if_pos h10, List.mem_singleton]
      intro c hc
      exact ⟨n, h10, hc⟩
    · intro c hc
      simp only [if_neg h10, List.mem_append, List.mem_singleton] at hc
      rcases hc with hc | hc
      · exact ih (n / 10) (Nat.div_lt_self (by omega) (by omega)) c hc
      · exact ⟨n % 10, Nat.mod_lt _ (by omega), hc⟩

theorem digitChar_isDigit (k : Nat) (h : k < 10) : (digitChar k).isDigit = true := by
  interval_cases k <;> decide

theorem zeroPad_length (w : Nat) (ds : List Char) (h : ds.length ≤ w) :
    (zeroPad w ds).length = w := by
  simp [zeroPad]
  omega

theorem padNum_length (w v : Nat) (h1 : 1 ≤ w) (hv : v < 10 ^ w) :
    (padNum w v).length = w :=
  zeroPad_length _ _ (natDigits_length_le w v hv h1)

theorem padNum_isDigit (w v : Nat) : ∀ c ∈ padNum w v, c.isDigit = true := by
  intro c hc
  simp only [padNum, zeroPad, List.mem_append, List.mem_replicate] at hc
  rcases hc with ⟨-, rfl⟩ | hc
  · decide
  · obtain ⟨k, hk, rfl⟩ := natDigits_mem v c hc
    exact digitChar_isDigit k hk

theorem ok_eq_true_iff (g : GenerateCodes) (c : Code) (m : Nat) :
    g.ok c m = true ↔ ∀ s ∈ g.used, m ≤ hammingDistance s c := by
  simp [GenerateCodes.ok, List.all_eq_true, ge_iff_le]

theorem ok_eq_false_of_mem (g : GenerateCodes) (c : Code) (m : Nat) (s : Code)
    (hs : s ∈ g.used) (h : hammingDistance s c < m) : g.ok c m = false := by
  cases hok : g.ok c m with
  | false => rfl
  | true =>
    have := (ok_eq_true_iff g c m).mp hok s hs
    omega

theorem new_code_sound : ∀ fuel (g : GenerateCodes) (pfx : Code) (m : Nat)
    (c : Code) (g' : GenerateCodes),
    g.new_code fuel pfx m = some (c, g') →
    g'.used = g.used ++ [c] ∧ g'.num_digits = g.num_digits ∧
    g'.rangeSize = g.rangeSize ∧ g'.rng = g.rng ∧
    (∀ s ∈ g.used, m ≤ hammingDistance s c) := by
  intro fuel
  induction fuel with
  | zero =>
    intro g pfx m c g' h
    exact absurd h (by simp [GenerateCodes.new_code])
  | succ fuel ih =>
    intro g pfx m c g' h
    rw [GenerateCodes.new_code] at h
    by_cases hok : (g.advance).ok (g.candidate pfx) m = true
    · rw [if_pos hok] at h
      simp only [Option.some.injEq, Prod.mk.injEq] at h
      obtain ⟨rfl, rfl⟩ := h
      refine ⟨rfl, rfl, rfl, rfl, ?_⟩
      intro s hs
      exact (ok_eq_true_iff g.advance _ _).mp hok s hs
    · rw [if_neg hok] at h
      exact ih g.advance pfx m c g' h

theorem GoodSet_append (m : Nat) (used : List Code) (c : Code)
    (h0 : GoodSet m used) (hc : ∀ s ∈ used, m ≤ hammingDistance s c) :
    GoodSet m (used ++ [c]) := by
  intro a ha b hb hab
  simp only [List.mem_append, List.mem_singleton] at ha hb
  rcases ha with ha | rfl
  · rcases hb with hb | rfl
    · exact h0 a ha b hb hab
    · exact hc a ha
  · rcases hb with hb | rfl
    · rw [hammingDistance_comm]
      exact hc b hb
    · exact absurd rfl hab

theorem new_code_good (fuel : Nat) (g : GenerateCodes) (pfx : Code) (m : Nat)
    (c : Code) (g' : GenerateCodes) (h0 : GoodSet m g.used)
    (h : g.new_code fuel pfx m = some (c, g')) : GoodSet m g'.used := by
  obtain ⟨hu, -, -, -, hacc⟩ := new_code_sound fuel g pfx m c g' h
  rw [hu]
  exact GoodSet_append m g.used c h0 hacc

theorem new_codes_sound : ∀ (count fuel : Nat) (g : GenerateCodes) (pfx : Code)
    (m : Nat) (cs : List Code) (g' : GenerateCodes),
    g.new_codes fuel pfx m count = some (cs, g') →
    g'.used = g.used ++ cs ∧ g'.num_digits = g.num_digits ∧
    g'.rangeSize = g.rangeSize ∧ g'.rng = g.rng := by
  intro count
  induction count with
  | zero =>
    intro fuel g pfx m cs g' h
    simp only [GenerateCodes.new_codes, Option.some.injEq, Prod.mk.injEq] at h
    obtain ⟨rfl, rfl⟩ := h
    simp
  | succ count ih =>
    intro fuel g pfx m cs g' h
    rw [GenerateCodes.new_codes] at h
    split at h
    · exact absurd h (by simp)
    · rename_i c g1 heq1
      split at h
      · exact absurd h (by simp)
      · rename_i cs1 g2 heq2
        simp only [Option.some.injEq, Prod.mk.injEq] at h
        obtain ⟨rfl, rfl⟩ := h
        obtain ⟨hu1, hd1, hr1, hg1, -⟩ := new_code_sound fuel g pfx m c g1 heq1
        obtain ⟨hu2, hd2, hr2, hg2⟩ := ih fuel g1 pfx m cs1 g2 heq2
        refine ⟨?_, hd2.trans hd1, hr2.trans hr1, hg2.trans hg1⟩
        rw [hu2, hu1]
        simp

theorem runRequests_sound : ∀ (reqs : List (Code × Nat)) (fuel m : Nat)
    (g : GenerateCodes) (cs : List Code) (g' : GenerateCodes),
    runRequests fuel m g reqs = some (cs, g') →
    g'.used = g.used ++ cs ∧ g'.num_digits = g.num_digits ∧
    g'.rangeSize = g.rangeSize ∧ g'.rng = g.rng := by
  intro reqs
  induction reqs with
  | nil =>
    intro fuel m g cs g' h
    simp only [runRequests, Option.some.injEq, Prod.mk.injEq] at h
    obtain ⟨rfl, rfl⟩ := h
    simp
  | cons r rest ih =>
    intro fuel m g cs g' h
    obtain ⟨pfx, count⟩ := r
    rw [runRequests] at h
    split at h
    · exact absurd h (by simp)
    · rename_i cs1 g1 heq1
      split at h
      · exact absurd h (by simp)
      · rename_i cs2 g2 heq2
        simp only [Option.some.injEq, Prod.mk.injEq] at h
        obtain ⟨rfl, rfl⟩ := h
        obtain ⟨hu1, hd1, hr1, hg1⟩ := new_codes_sound count fuel g pfx m cs1 g1 heq1
        obtain ⟨hu2, hd2, hr2, hg2⟩ := ih fuel m g1 cs2 g2 heq2
        refine ⟨?_, hd2.trans hd1, hr2.trans hr1, hg2.trans hg1⟩
        rw [hu2, hu1]
        simp

theorem new_code_fresh (fuel : Nat) (g : GenerateCodes) (pfx : Code) (m : Nat)
    (c : Code) (g' : GenerateCodes) (hm : 1 ≤ m)
    (h : g.new_code fuel pfx m = some (c, g')) : c ∉ g.used := by
  intro hc
  have := (new_code_sound fuel g pfx m c g' h).2.2.2.2 c hc
  rw [hammingDistance_self] at this
  omega

theorem new_codes_fresh : ∀ (count fuel : Nat) (g : GenerateCodes) (pfx : Code)
    (m : Nat) (cs : List Code) (g' : GenerateCodes), 1 ≤ m →
    g.new_codes fuel pfx m count = some (cs, g') →
    cs.Pairwise (· ≠ ·) ∧ ∀ x ∈ cs, x ∉ g.used := by
  intro count
  induction count with
  | zero =>
    intro fuel g pfx m cs g' hm h
    simp only [GenerateCodes.new_codes, Option.some.injEq, Prod.mk.injEq] at h
    obtain ⟨rfl, rfl⟩ := h
    simp
  | succ count ih =>
    intro fuel g pfx m cs g' hm h
    rw [GenerateCodes.new_codes] at h
    split at h
    · exact absurd h (by simp)
    · rename_i c g1 heq1
      split at h
      · exact absurd h (by simp)
      · rename_i cs1 g2 heq2
        simp only [Option.some.injEq, Prod.mk.injEq] at h
        obtain ⟨rfl, rfl⟩ := h
        have hnot := new_code_fresh fuel g pfx m c g1 hm heq1
        have hu1 : g1.used = g.used ++ [c] := (new_code_sound fuel g pfx m c g1 heq1).1
        obtain ⟨hp, hfresh⟩ := ih fuel g1 pfx m cs1 g2 hm heq2
        constructor
        · refine List.Pairwise.cons ?_ hp
          intro x hx hcx
          apply hfresh x hx
          rw [hu1, ← hcx]
          simp
        · intro x hx
          rcases List.mem_cons.mp hx with rfl | hx1
          · exact hnot
          · intro hxin
            apply hfresh x hx1
            rw [hu1]
            exact List.mem_append_left _ hxin

theorem runRequests_fresh : ∀ (reqs : List (Code × Nat)) (fuel m : Nat)
    (g : GenerateCodes) (cs : List Code) (g' : GenerateCodes), 1 ≤ m →
    runRequests fuel m g reqs = some (cs, g') →
    cs.Pairwise (· ≠ ·) ∧ ∀ x ∈ cs, x ∉ g.used := by
  intro reqs
  induction reqs with
  | nil =>
    intro fuel m g cs g' hm h
    simp only [runRequests, Option.some.injEq, Prod.mk.injEq] at h
    obtain ⟨rfl, rfl⟩ := h
    simp
  | cons r rest ih =>
    intro fuel m g cs g' hm h
    obtain ⟨pfx, count⟩ := r
    rw [runRequests] at h
    split at h
    · exact absurd h (by simp)
    · rename_i cs1 g1 heq1
      split at h
      · exact absurd h (by simp)
      · rename_i cs2 g2 heq2
        simp only [Option.some.injEq, Prod.mk.injEq] at h
        obtain ⟨rfl, rfl⟩ := h
        obtain ⟨hp1, hf1⟩ := new_codes_fresh count fuel g pfx m cs1 g1 hm heq1
        obtain ⟨hp2, hf2⟩ := ih fuel m g1 cs2 g2 hm heq2
        have hu1 : g1.used = g.used ++ cs1 := (new_codes_sound count fuel g pfx m cs1 g1 heq1).1
        constructor
        · rw [List.pairwise_append]
          refine ⟨hp1, hp2, ?_⟩
          intro a ha b hb hab
          apply hf2 b hb
          rw [hu1, ← hab]
          exact List.mem_append_right _ ha
        · intro x hx
          rcases List.mem_append.mp hx with hx1 | hx2
          · exact hf1 x hx1
          · intro hxin
            apply hf2 x hx2
            rw [hu1]
            exact List.mem_append_left _ hxin

theorem new_codes_good : ∀ (count fuel : Nat) (g : GenerateCodes) (pfx : Code)
    (m : Nat) (cs : List Code) (g' : GenerateCodes), GoodSet m g.used →
    g.new_codes fuel pfx m count = some (cs, g') → GoodSet m g'.used := by
  intro count
  induction count with
  | zero =>
    intro fuel g pfx m cs g' h0 h
    simp only [GenerateCodes.new_codes, Option.some.injEq, Prod.mk.injEq] at h
    obtain ⟨rfl, rfl⟩ := h
    exact h0
  | succ count ih =>
    intro fuel g pfx m cs g' h0 h
    rw [GenerateCodes.new_codes] at h
    split at h
    · exact absurd h (by simp)
    · rename_i c g1 heq1
      split at h
      · exact absurd h (by simp)
      · rename_i cs1 g2 heq2
        simp only [Option.some.injEq, Prod.mk.injEq] at h
        obtain ⟨rfl, rfl⟩ := h
        exact ih fuel g1 pfx m cs1 g2 (new_code_good fuel g pfx m c g1 h0 heq1) heq2

theorem runRequests_good : ∀ (reqs : List (Code × Nat)) (fuel m : Nat)
    (g : GenerateCodes) (cs : List Code) (g' : GenerateCodes), GoodSet m g.used →
    runRequests fuel m g reqs = some (cs, g') → GoodSet m g'.used := by
  intro reqs
  induction reqs with
  | nil =>
    intro fuel m g cs g' h0 h
    simp only [runRequests, Option.some.injEq, Prod.mk.injEq] at h
    obtain ⟨rfl, rfl⟩ := h
    exact h0
  | cons r rest ih =>
    intro fuel m g cs g' h0 h
    obtain ⟨pfx, count⟩ := r
    rw [runRequests] at h
    split at h
    · exact absurd h (by simp)
    · rename_i cs1 g1 heq1
      split at h
      · exact absurd h (by simp)
      · rename_i cs2 g2 heq2
        simp only [Option.some.injEq, Prod.mk.injEq] at h
        obtain ⟨rfl, rfl⟩ := h
        exact ih fuel m g1 cs2 g2 (new_codes_good count fuel g pfx m cs1 g1 h0 heq1) heq2

theorem ok_false_of_short_candidate (g : GenerateCodes) (c : Code) (m : Nat)
    (hne : g.used ≠ []) (hc : c.length < m) : g.ok c m = false := by
  cases hu : g.used with
  | nil => exact absurd hu hne
  | cons s t =>
    refine ok_eq_false_of_mem g c m s (by rw [hu]; simp) ?_
    exact lt_of_le_of_lt (hammingDistance_le_right s c) hc

theorem new_code_none_of_short_used (s : Code) (m : Nat) (hlen : s.length < m) :
    ∀ (fuel : Nat) (g : GenerateCodes), s ∈ g.used → ∀ pfx : Code,
    g.new_code fuel pfx m = none := by
  intro fuel
  induction fuel with
  | zero => intro g hs pfx; rfl
  | succ fuel ih =>
    intro g hs pfx
    have hok : (g.advance).ok (g.candidate pfx) m = false :=
      ok_eq_false_of_mem g.advance (g.candidate pfx) m s hs
        (lt_of_le_of_lt (hammingDistance_le_left s _) hlen)
    rw [GenerateCodes.new_code, if_neg (by simp [hok])]
    exact ih g.advance hs pfx

theorem candidate_length (g : GenerateCodes) (pfx : Code)
    (hr : g.rangeSize = 10 ^ g.num_digits) (hd : 1 ≤ g.num_digits) :
    (g.candidate pfx).length = pfx.length + g.num_digits := by
  have hs : g.sample < 10 ^ g.num_digits := by
    rw [GenerateCodes.sample, hr]
    exact Nat.mod_lt _ (pow_pos (by omega) _)
  simp [GenerateCodes.candidate, padNum_length _ _ hd hs]

theorem new_code_none_width_one : ∀ (fuel : Nat) (g : GenerateCodes),
    g.num_digits = 1 → g.rangeSize = 10 → g.used ≠ [] →
    g.new_code fuel [] 2 = none := by
  intro fuel
  induction fuel with
  | zero => intro g _ _ _; rfl
  | succ fuel ih =>
    intro g hd hr hne
    have hlen : (g.candidate []).length < 2 := by
      rw [candidate_length g [] (by rw [hr, hd]; norm_num) (by omega)]
      simp only [List.length_nil, hd]
      omega
    have hok : (g.advance).ok (g.candidate []) 2 = false :=
      ok_false_of_short_candidate g.advance (g.candidate []) 2 hne hlen
    rw [GenerateCodes.new_code, if_neg (by simp [hok])]
    exact ih g.advance hd hr hne

/-- The distance exactly as the spec words it: the number of positions `i`
below the length of the shorter of the two strings at which the two strings
hold different characters. Stated with `get?` so that positions past either
end (never reached below the shared length) compare as absent. -/
def specHammingDistance (s c : Code) : Nat :=
  ((List.range (min s.length c.length)).filter
    (fun i => s.get? i != c.get? i)).length

theorem specHammingDistance_eq (s c : Code) :
    specHammingDistance s c = hammingDistance s c := by
  induction s generalizing c with
  | nil => simp [specHammingDistance, hammingDistance]
  | cons a s ih =>
    cases c with
    | nil => simp [specHammingDistance, hammingDistance]
    | cons b t =>
      have hL : specHammingDistance (a :: s) (b :: t) =
          specHammingDistance s t + (if (a != b) = true then 1 else 0) := by
        rw [specHammingDistance, specHammingDistance,
          ← List.countP_eq_length_filter, ← List.countP_eq_length_filter,
          List.length_cons, List.length_cons, Nat.succ_min_succ,
          List.range_succ_eq_map, List.countP_cons, List.countP_map]
        have hcomp :
            ((fun i => ((a :: s).get? i != (b :: t).get? i)) ∘ Nat.succ) =
              (fun i => (s.get? i != t.get? i)) := by
          funext i
          simp
        rw [hcomp]
        have h0 : ((a :: s).get? 0 != (b :: t).get? 0) = (a != b) := by
          simp only [List.get?_cons_zero]
          by_cases hab : a = b
          · subst hab
            simp
          · have h1 : (some a != some b) = true := by
              simp [bne_iff_ne, hab]
            have h2 : (a != b) = true := by
              simp [bne_iff_ne, hab]
            rw [h1, h2]
        rw [h0]
      have hR : hammingDistance (a :: s) (b :: t) =
          hammingDistance s t + (if (a != b) = true then 1 else 0) := by
        rw [hammingDistance, hammingDistance, List.zip_cons_cons,
          ← List.countP_eq_length_filter, ← List.countP_eq_length_filter,
          List.countP_cons]
      rw [hL, hR, ih t]

/-- Claim C1 (amended): provided the pre-supplied codes loaded into the
used set are themselves pairwise at Hamming distance at least
`min_hamming_distance`, every pair of distinct codes in the final used set
— all codes generated in the run, across all prefixes, together with the
pre-supplied codes — is at Hamming distance at least
`min_hamming_distance`, measured over the length of the shorter string. -/
theorem claim_final_used_pairwise (fuel m : Nat) (g : GenerateCodes)
    (reqs : List (Code × Nat)) (cs : List Code) (g' : GenerateCodes)
    (h0 : GoodSet m g.used) (h : runRequests fuel m g reqs = some (cs, g')) :
    GoodSet m g'.used :=
  runRequests_good reqs fuel m g cs g' h0 h

/-- Claim C1 fails as stated: a run with pre-supplied codes `"00"` and
`"01"` and `min_hamming_distance = 2` accepts a code and ends with a used
set whose distinct pair `"00"`, `"01"` is at distance 1 < 2. -/
theorem claim_final_used_pairwise_counterexample :
    (runRequests 1 2 cexBefore [([], 1)]).map (fun p => p.2.used) =
      some [['0', '0'], ['0', '1'], ['2', '2']] ∧
    ¬ GoodSet 2 [['0', '0'], ['0', '1'], ['2', '2']] :=
  ⟨rfl, by decide⟩

theorem claim_final_used_pairwise_witness : GoodSet 2 wAfter.used :=
  claim_final_used_pairwise 1 2 wBefore [([], 1)] [['2', '2']] wAfter
    (by decide) rfl

/-- Claim C2: `ok` accepts a candidate iff every code in the used set
differs from it in at least `min_hamming_distance` positions below the
length of the shorter of the two strings; with an empty used set every
candidate is accepted for every `min_hamming_distance`. -/
theorem claim_ok_acceptance (g : GenerateCodes) (c : Code) (m : Nat) :
    (g.ok c m = true ↔ ∀ s ∈ g.used, m ≤ specHammingDistance s c) ∧
    (g.used = [] → g.ok c m = true) := by
  constructor
  · rw [ok_eq_true_iff]
    constructor
    · intro h s hs
      rw [specHammingDistance_eq]
      exact h s hs
    · intro h s hs
      rw [← specHammingDistance_eq]
      exact h s hs
  · intro h
    rw [ok_eq_true_iff, h]
    intro s hs
    exact absurd hs (List.not_mem_nil s)

theorem claim_ok_acceptance_witness :
    (initGenerator (fun i => i) 3).ok ['9', '9'] 7 = true :=
  (claim_ok_acceptance (initGenerator (fun i => i) 3) ['9', '9'] 7).2 rfl

/-- Claim C3: with the range set to `[0, 10^num_digits)` and
`num_digits ≥ 1`, `generate_candidate` returns the prefix immediately
followed by the sampled value written in decimal and left-zero-padded to
exactly `num_digits` digit characters, so the result has length
`len(prefix) + num_digits`. -/
theorem claim_generate_candidate_format (g : GenerateCodes) (pfx : Code)
    (hr : g.rangeSize = 10 ^ g.num_digits) (hd : 1 ≤ g.num_digits) :
    (g.generate_candidate pfx).1 = pfx ++ padNum g.num_digits g.sample ∧
    (padNum g.num_digits g.sample).length = g.num_digits ∧
    (∀ ch ∈ padNum g.num_digits g.sample, ch.isDigit = true) ∧
    (g.generate_candidate pfx).1.length = pfx.length + g.num_digits := by
  have hs : g.sample < 10 ^ g.num_digits := by
    rw [GenerateCodes.sample, hr]
    exact Nat.mod_lt _ (pow_pos (by omega) _)
  exact ⟨rfl, padNum_length _ _ hd hs, padNum_isDigit _ _,
    candidate_length g pfx hr hd⟩

theorem claim_generate_candidate_format_witness :
    ((initGenerator (fun _ => 7) 4).generate_candidate ['A']).1.length = 1 + 4 ∧
    padNum 4 7 = ['0', '0', '0', '7'] :=
  ⟨(claim_generate_candidate_format (initGenerator (fun _ => 7) 4) ['A']
      rfl (by decide)).2.2.2, by decide⟩

/-- Claim C4: determinism — two runs started from pointwise-equal seed
streams, the same digit width, an empty used set, the same
`min_hamming_distance` and the same `(prefix, count)` request sequence
return identical code sequences. -/
theorem claim_deterministic (s1 s2 : Nat → Nat) (digits fuel m : Nat)
    (reqs : List (Code × Nat)) (h : ∀ i, s1 i = s2 i) :
    runRequests fuel m (initGenerator s1 digits) reqs =
      runRequests fuel m (initGenerator s2 digits) reqs := by
  rw [funext h]

theorem claim_deterministic_witness :
    runRequests 2 1 (initGenerator (fun i => i) 2) [([], 1)] =
      runRequests 2 1 (initGenerator (fun i => 0 + i) 2) [([], 1)] :=
  claim_deterministic (fun i => i) (fun i => 0 + i) 2 2 1 [([], 1)]
    (fun i => (Nat.zero_add i).symm)

/-- Claim C5: frame — `generate_candidate` leaves the used list,
`num_digits`, the range and the random stream unchanged; `ok` is a pure
predicate reading only the used list; and when `new_code` returns a code
the used list afterwards is exactly the old used list with that code
appended, with `num_digits`, the range and the stream unchanged. -/
theorem claim_frame (g : GenerateCodes) (pfx cand c : Code) (m fuel : Nat)
    (g' : GenerateCodes) :
    (g.generate_candidate pfx).2.used = g.used ∧
    (g.generate_candidate pfx).2.num_digits = g.num_digits ∧
    (g.generate_candidate pfx).2.rangeSize = g.rangeSize ∧
    (g.generate_candidate pfx).2.rng = g.rng ∧
    (∀ g2 : GenerateCodes, g2.used = g.used → g2.ok cand m = g.ok cand m) ∧
    (g.new_code fuel pfx m = some (c, g') →
      g'.used = g.used ++ [c] ∧ g'.num_digits = g.num_digits ∧
      g'.rangeSize = g.rangeSize ∧ g'.rng = g.rng) := by
  refine ⟨rfl, rfl, rfl, rfl, ?_, ?_⟩
  · intro g2 h2
    simp [GenerateCodes.ok, h2]
  · intro h
    obtain ⟨h1, h2, h3, h4, -⟩ := new_code_sound fuel g pfx m c g' h
    exact ⟨h1, h2, h3, h4⟩

theorem claim_frame_witness :
    frameAfter.used = frameBefore.used ++ [frameBefore.candidate ['B']] :=
  ((claim_frame frameBefore ['B'] [] (frameBefore.candidate ['B']) 0 1
      frameAfter).2.2.2.2.2 rfl).1

/-- Claim C6: with `min_hamming_distance = 0` the very first drawn
candidate is accepted: the loop body never runs, the PRNG advances exactly
once, and that first candidate is returned and pushed onto the used list. -/
theorem claim_zero_distance (g : GenerateCodes) (pfx : Code) (fuel : Nat) :
    g.new_code (fuel + 1) pfx 0 =
      some (g.candidate pfx, (g.advance).push (g.candidate pfx)) ∧
    ((g.advance).push (g.candidate pfx)).idx = g.idx + 1 := by
  have hok : (g.advance).ok (g.candidate pfx) 0 = true := by
    rw [ok_eq_true_iff]
    intro s hs
    exact Nat.zero_le _
  refine ⟨?_, rfl⟩
  rw [GenerateCodes.new_code, if_pos hok]

/-- Claim C7: infeasibility boundary — with one digit, empty prefix and
`min_hamming_distance = 2`, once the used set is nonempty every candidate
(whose length is at most 1) is rejected by `ok`, and `new_code` yields no
result for any amount of fuel: the loop never terminates and never returns
a code violating the constraint. -/
theorem claim_infeasible_width_one (g : GenerateCodes)
    (hd : g.num_digits = 1) (hr : g.rangeSize = 10) (hne : g.used ≠ []) :
    (∀ c : Code, c.length ≤ 1 → g.ok c 2 = false) ∧
    (∀ fuel : Nat, g.new_code fuel [] 2 = none) := by
  constructor
  · intro c hc
    exact ok_false_of_short_candidate g c 2 hne (by omega)
  · intro fuel
    exact new_code_none_width_one fuel g hd hr hne

theorem claim_infeasible_width_one_witness :
    GenerateCodes.new_code infeasibleGen 5 [] 2 = none :=
  (claim_infeasible_width_one infeasibleGen rfl rfl (by decide)).2 5

/-- Claim C8: with `min_hamming_distance ≥ 1` a code returned by
`new_code` is never string-equal to a code already in the used set before
the call, and consequently all codes generated in one run are pairwise
distinct strings. -/
theorem claim_distinct (fuel m : Nat) (g : GenerateCodes) (pfx c : Code)
    (g' g0 : GenerateCodes) (reqs : List (Code × Nat)) (cs : List Code)
    (g0' : GenerateCodes) (hm : 1 ≤ m) :
    (g.new_code fuel pfx m = some (c, g') → c ∉ g.used) ∧
    (runRequests fuel m g0 reqs = some (cs, g0') → cs.Pairwise (· ≠ ·)) :=
  ⟨fun h => new_code_fresh fuel g pfx m c g' hm h,
   fun h => (runRequests_fresh reqs fuel m g0 cs g0' hm h).1⟩

theorem claim_distinct_witness : ['2', '2'] ∉ wBefore.used :=
  (claim_distinct 1 2 wBefore [] ['2', '2'] wAfter wBefore [] [] wBefore
    (by omega)).1 rfl

/-- Claim C9: short-code poisoning — if the used set contains a string
shorter than `min_hamming_distance` (for example the empty string from a
blank line of an existing-codes file), `ok` rejects every candidate
whatsoever, and every subsequent `new_code` call yields no result for any
amount of fuel. -/
theorem claim_short_code_poisoning (g : GenerateCodes) (m : Nat) (s : Code)
    (hs : s ∈ g.used) (hlen : s.length < m) :
    (∀ c : Code, g.ok c m = false) ∧
    (∀ (fuel : Nat) (pfx : Code), g.new_code fuel pfx m = none) := by
  constructor
  · intro c
    exact ok_eq_false_of_mem g c m s hs
      (lt_of_le_of_lt (hammingDistance_le_left s c) hlen)
  · intro fuel pfx
    exact new_code_none_of_short_used s m hlen fuel g hs pfx

theorem claim_short_code_poisoning_witness :
    GenerateCodes.new_code poisonGen 4 ['A'] 1 = none :=
  (claim_short_code_poisoning poisonGen 1 [] (by decide) (by decide)).2 4 ['A']

/-- Claim C10: with `num_digits = 0` (range `[0, 1)`) the candidate is the
prefix followed by the single character zero: its length is
`len(prefix) + 1`, not `len(prefix) + 0`, so the width invariant fails at
this boundary. -/
theorem claim_zero_digits (g : GenerateCodes) (pfx : Code)
    (hd : g.num_digits = 0) (hr : g.rangeSize = 1) :
    (g.generate_candidate pfx).1 = pfx ++ ['0'] ∧
    (g.generate_candidate pfx).1.length = pfx.length + 1 := by
  have hsample : g.sample = 0 := by
    rw [GenerateCodes.sample, hr]
    exact Nat.mod_one _
  have hpad : padNum g.num_digits g.sample = ['0'] := by
    rw [hd, hsample]
    decide
  constructor
  · show g.candidate pfx = _
    rw [GenerateCodes.candidate, hpad]
  · show (g.candidate pfx).length = _
    rw [GenerateCodes.candidate, hpad]
    simp

theorem claim_zero_digits_witness :
    ((initGenerator (fun i => i) 0).generate_candidate ['X']).1 = ['X', '0'] :=
  (claim_zero_digits (initGenerator (fun i => i) 0) ['X'] rfl rfl).1
